import Mathlib

/-!
# Verification of the tmux-task-monitor resource engine

Shallow embedding of the core algorithms of `tmux_monitor.py` and
`tmux_overview.py`: the CPU-percent accounting model, the pane-PID cache,
the process-tree builder, the tree-connector renderer, the session
aggregation/sort, the window-selection reconciliation, and the startup
refresh-rate check.

Modelling conventions:
* Python floats (timestamps, CPU seconds, percentages) are modelled as `Rat`,
  so the arithmetic identities hold exactly rather than "within tolerance".
* Python dicts keyed by PID / string are modelled as association lists with
  first-match lookup and replace-on-insert.
* `psutil` queries are modelled as explicit environment arguments; a query
  that raises `NoSuchProcess`/`AccessDenied` is modelled as a failure value.
-/

namespace TmuxMonitor

/-- Result of `proc.cpu_times()`: cumulative user and system CPU seconds. -/
structure CpuTimes where
  user : Rat
  system : Rat
deriving Repr, DecidableEq

/-- One baseline record of `self.last_cpu_measurements[pid]`:
the `(timestamp, cpu_times)` pair. -/
structure Baseline where
  time : Rat
  times : CpuTimes
deriving Repr, DecidableEq

/-- The `self.last_cpu_measurements` dict: pid -> (timestamp, cpu_times). -/
abbrev BaselineTable := List (Nat × Baseline)

/-- Python `pid in dict` / `dict[pid]`: first-match association lookup. -/
def tableLookup (t : BaselineTable) (pid : Nat) : Option Baseline :=
  match t with
  | [] => none
  | (p, b) :: rest => if p = pid then some b else tableLookup rest pid

/-- Python `dict[pid] = v`: replace any existing binding for `pid`. -/
def tableInsert (t : BaselineTable) (pid : Nat) (b : Baseline) : BaselineTable :=
  (pid, b) :: t.filter (fun e => !(e.1 = pid : Bool))

/-- Outcome of `psutil.Process(pid)` followed by `proc.cpu_times()`:
either the cumulative CPU times, or a `NoSuchProcess`/`AccessDenied` failure. -/
inductive ProcQuery where
  | ok (times : CpuTimes)
  | err
deriving Repr, DecidableEq

/-- `TmuxResourceMonitor.get_cpu_percent(pid, update_baseline=False)`
(tmux_monitor.py lines 114-140).  The external process table is `world`,
the wall clock is `now`, and the mutable `self.last_cpu_measurements` is
threaded explicitly: the result is `(returned percent, new table)`.
Mirrors the source: on a query failure it returns `0.0` without touching
the table; with a baseline present and `elapsed > 0.1` it returns
`(cpu_diff / elapsed) * 100`, advancing the baseline only when
`update_baseline` is set; below the threshold it returns `0.0` unchanged;
with no baseline it returns `0.0`, recording one only when
`update_baseline` is set. -/
def get_cpu_percent (world : Nat → ProcQuery) (table : BaselineTable)
    (now : Rat) (pid : Nat) (update_baseline : Bool := false) :
    Rat × BaselineTable :=
  match world pid with
  | ProcQuery.err => (0, table)
  | ProcQuery.ok current_times =>
    match tableLookup table pid with
    | some b =>
      let elapsed := now - b.time
      if 1/10 < elapsed then
        let last_cpu := b.times.user + b.times.system
        let current_cpu := current_times.user + current_times.system
        let cpu_diff := current_cpu - last_cpu
        let percent := (cpu_diff / elapsed) * 100
        (percent,
          if update_baseline then
            tableInsert table pid ⟨now, current_times⟩
          else table)
      else (0, table)
    | none =>
      (0,
        if update_baseline then
          tableInsert table pid ⟨now, current_times⟩
        else table)

/-- A world in which every PID query fails (all processes vanished or
permission-denied). -/
def worldAllErr : Nat → ProcQuery := fun _ => ProcQuery.err

/-- A world in which PID 1 reports the given cumulative CPU times. -/
def worldPid1 (t : CpuTimes) : Nat → ProcQuery :=
  fun p => if p = 1 then ProcQuery.ok t else ProcQuery.err

end TmuxMonitor

namespace TmuxMonitor

/-- C1: the claim says a failed query removes the PID's baseline entry.
The code's `except` branch (line 139-140) only returns `0.0`; the table is
left unchanged, so the stale entry for PID 1 is still present after the
call, and a reappearance of PID 1 resumes from the stale baseline with a
nonzero percent instead of a fresh first observation. -/
theorem get_cpu_percent_err_keeps_baseline_cex :
    let table : BaselineTable := [(1, ⟨0, ⟨5, 5⟩⟩)]
    (tableLookup (get_cpu_percent worldAllErr table 1 1).2 1
        = some ⟨0, ⟨5, 5⟩⟩)
    ∧ (get_cpu_percent (worldPid1 ⟨6, 5⟩)
        (get_cpu_percent worldAllErr table 1 1).2 2 1).1 = 50 := by
  refine ⟨rfl, ?_⟩
  norm_num [get_cpu_percent, worldAllErr, worldPid1, tableLookup]

/-- C1 (amended): for every PID whose process cannot be queried, the CPU
sampling operation returns 0 and leaves the baseline table entirely
unchanged (the stale entry, if any, is kept, so a reappearing PID resumes
from the stale baseline rather than being treated as fresh). -/
theorem get_cpu_percent_err_returns_zero_keeps_table
    (world : Nat → ProcQuery) (table : BaselineTable) (now : Rat) (pid : Nat)
    (update_baseline : Bool) (h : world pid = ProcQuery.err) :
    get_cpu_percent world table now pid update_baseline = (0, table) := by
  simp [get_cpu_percent, h]

/-- Witness for `get_cpu_percent_err_returns_zero_keeps_table` at a concrete
failing world and a one-entry table. -/
theorem get_cpu_percent_err_returns_zero_keeps_table_witness :
    get_cpu_percent worldAllErr [(1, ⟨0, ⟨5, 5⟩⟩)] 1 1 false
      = (0, [(1, ⟨0, ⟨5, 5⟩⟩)]) :=
  get_cpu_percent_err_returns_zero_keeps_table worldAllErr
    [(1, ⟨0, ⟨5, 5⟩⟩)] 1 1 false rfl

/-- C4: the claim says that for a PID with no baseline entry, a call with
the default arguments (`update_baseline=False`, the form used by every
display/aggregation caller: lines 307, 312, 418, 485, 494) returns 0 and
records a baseline entry.  The code only records a baseline when
`update_baseline` is true (lines 136-137), so after a default call on an
empty table the table still has no entry for the PID. -/
theorem get_cpu_percent_first_obs_no_record_cex :
    (get_cpu_percent (worldPid1 ⟨5, 5⟩) [] 1 1).1 = 0
    ∧ tableLookup (get_cpu_percent (worldPid1 ⟨5, 5⟩) [] 1 1).2 1 = none := by
  constructor
  · rfl
  · rfl

/-- C4 (amended): for every PID not present in the baseline table, a call
with the default arguments returns 0 and leaves the baseline table
unchanged; a baseline entry is recorded only when `update_baseline=True`
is passed (which no per-process display or aggregation caller does —
baselines are seeded only by the warm-up pass). -/
theorem get_cpu_percent_first_obs_default
    (world : Nat → ProcQuery) (table : BaselineTable) (now : Rat) (pid : Nat)
    (hmiss : tableLookup table pid = none) :
    get_cpu_percent world table now pid = (0, table) := by
  cases h : world pid with
  | err => simp [get_cpu_percent, h]
  | ok cur => simp [get_cpu_percent, h, hmiss]

/-- Witness for `get_cpu_percent_first_obs_default` on the empty table. -/
theorem get_cpu_percent_first_obs_default_witness :
    get_cpu_percent (worldPid1 ⟨5, 5⟩) [] 1 1 = (0, []) :=
  get_cpu_percent_first_obs_default (worldPid1 ⟨5, 5⟩) [] 1 1 rfl

/-- C6: for every PID with an existing baseline `(t0, base)`, when the
query succeeds with cumulative times `cur` and the elapsed wall time
`now - t0` exceeds the 0.1s threshold, the returned percent equals
`100 * Δt_cpu / Δt_wall` where `Δt_cpu` is the increase in cumulative CPU
time (user+system) and `Δt_wall = now - t0`.  (Rationals model the Python
floats, so "within floating-point tolerance" becomes exact equality.) -/
theorem get_cpu_percent_rate_formula
    (world : Nat → ProcQuery) (table : BaselineTable) (now : Rat) (pid : Nat)
    (update_baseline : Bool) (t0 : Rat) (base cur : CpuTimes)
    (hbase : tableLookup table pid = some ⟨t0, base⟩)
    (hok : world pid = ProcQuery.ok cur)
    (helapsed : 1/10 < now - t0) :
    (get_cpu_percent world table now pid update_baseline).1
      = 100 * ((cur.user + cur.system) - (base.user + base.system))
          / (now - t0) := by
  simp only [get_cpu_percent, hok, hbase]
  rw [if_pos helapsed]
  ring

/-- Witness for `get_cpu_percent_rate_formula`: baseline at time 0 with
10 CPU-seconds, current sample at time 2 with 11 CPU-seconds, giving
`100 * 1 / 2 = 50` percent. -/
theorem get_cpu_percent_rate_formula_witness :
    (1 : Rat)/10 < 2 - 0
    ∧ (get_cpu_percent (worldPid1 ⟨6, 5⟩) [(1, ⟨0, ⟨5, 5⟩⟩)] 2 1 false).1
        = 100 * ((6 + 5) - ((5 : Rat) + 5)) / (2 - 0) := by
  refine ⟨by norm_num, ?_⟩
  exact get_cpu_percent_rate_formula (worldPid1 ⟨6, 5⟩) [(1, ⟨0, ⟨5, 5⟩⟩)]
    2 1 false 0 ⟨5, 5⟩ ⟨6, 5⟩ rfl rfl (by norm_num)

/-- The `self.pane_pid_cache` dict: key -> (timestamp, pids). -/
abbrev PaneCache := List (String × Rat × List Nat)

/-- Python `key in dict` / `dict[key]` for the pane cache. -/
def cacheLookup (c : PaneCache) (key : String) : Option (Rat × List Nat) :=
  match c with
  | [] => none
  | (k, v) :: rest => if k = key then some v else cacheLookup rest key

/-- Python `dict[key] = v` for the pane cache. -/
def cacheInsert (c : PaneCache) (key : String) (v : Rat × List Nat) :
    PaneCache :=
  (key, v) :: c.filter (fun e => !(e.1 = key : Bool))

/-- The cache key `f"{self.session_name}:{window_index}"`. -/
def pane_cache_key (session_name : String) (window_index : Nat) : String :=
  session_name ++ ":" ++ toString window_index

/-- Result of one `_get_cached_pane_pids` call: the returned pid list, the
cache state afterwards, and how many external `get_pane_pids` queries the
call issued. -/
structure CacheCall where
  pids : List Nat
  cache : PaneCache
  queries : Nat
deriving Repr

/-- `TmuxResourceMonitor._get_cached_pane_pids(window_index)`
(tmux_monitor.py lines 100-112).  The external `self.get_pane_pids`
subprocess query is modelled as `get_pane_pids : Rat → List Nat`, a
function of the call time (tmux state may change between queries).  A
cached entry younger than 0.5s is returned as-is with no external query;
otherwise the external source is queried and the result is stored with
the current timestamp. -/
def _get_cached_pane_pids (get_pane_pids : Rat → List Nat)
    (cache : PaneCache) (now : Rat) (session_name : String)
    (window_index : Nat) : CacheCall :=
  let cache_key := pane_cache_key session_name window_index
  let hit : Option (List Nat) :=
    match cacheLookup cache cache_key with
    | some (cached_time, cached_pids) =>
      if now - cached_time < 1/2 then some cached_pids else none
    | none => none
  match hit with
  | some pids => ⟨pids, cache, 0⟩
  | none =>
    let pids := get_pane_pids now
    ⟨pids, cacheInsert cache cache_key (now, pids), 1⟩

/-- Looking up the key just inserted returns the inserted value. -/
theorem cacheLookup_cacheInsert (c : PaneCache) (key : String)
    (v : Rat × List Nat) : cacheLookup (cacheInsert c key v) key = some v := by
  simp [cacheInsert, cacheLookup]

/-- C7: for a key not yet cached, a first call at time `t0` issues exactly
one external query; a second call at `t1` within the 0.5s TTL issues no
query and returns the cached list unchanged; a third call at `t2` past the
TTL issues a second external query and stores the fresh result under the
current timestamp `t2`. -/
theorem pane_cache_ttl (get_pane_pids : Rat → List Nat) (cache : PaneCache)
    (t0 t1 t2 : Rat) (session_name : String) (window_index : Nat)
    (hmiss : cacheLookup cache (pane_cache_key session_name window_index)
      = none)
    (hfresh : t1 - t0 < 1/2) (hstale : 1/2 ≤ t2 - t0) :
    let r1 := _get_cached_pane_pids get_pane_pids cache t0 session_name
      window_index
    let r2 := _get_cached_pane_pids get_pane_pids r1.cache t1 session_name
      window_index
    let r3 := _get_cached_pane_pids get_pane_pids r2.cache t2 session_name
      window_index
    r1.queries = 1 ∧ r1.pids = get_pane_pids t0
    ∧ r2.queries = 0 ∧ r2.pids = r1.pids ∧ r2.cache = r1.cache
    ∧ r3.queries = 1 ∧ r3.pids = get_pane_pids t2
    ∧ cacheLookup r3.cache (pane_cache_key session_name window_index)
        = some (t2, get_pane_pids t2) := by
  have h1 : _get_cached_pane_pids get_pane_pids cache t0 session_name
      window_index
      = ⟨get_pane_pids t0,
          cacheInsert cache (pane_cache_key session_name window_index)
            (t0, get_pane_pids t0), 1⟩ := by
    simp [_get_cached_pane_pids, hmiss]
  have hlook := cacheLookup_cacheInsert cache
    (pane_cache_key session_name window_index) (t0, get_pane_pids t0)
  have h2 : _get_cached_pane_pids get_pane_pids
      (cacheInsert cache (pane_cache_key session_name window_index)
        (t0, get_pane_pids t0)) t1 session_name window_index
      = ⟨get_pane_pids t0,
          cacheInsert cache (pane_cache_key session_name window_index)
            (t0, get_pane_pids t0), 0⟩ := by
    simp only [_get_cached_pane_pids, hlook]
    rw [if_pos hfresh]
  have h3 : _get_cached_pane_pids get_pane_pids
      (cacheInsert cache (pane_cache_key session_name window_index)
        (t0, get_pane_pids t0)) t2 session_name window_index
      = ⟨get_pane_pids t2,
          cacheInsert
            (cacheInsert cache (pane_cache_key session_name window_index)
              (t0, get_pane_pids t0))
            (pane_cache_key session_name window_index)
            (t2, get_pane_pids t2), 1⟩ := by
    have hnot : ¬ (t2 - t0 < 1/2) := not_lt.mpr hstale
    simp only [_get_cached_pane_pids, hlook]
    rw [if_neg hnot]
  simp [h1, h2, h3, cacheLookup_cacheInsert]

/-- Witness for `pane_cache_ttl`: empty cache, constant external answer
`[42]`, calls at times 0, 0.2 and 0.6. -/
theorem pane_cache_ttl_witness :
    cacheLookup ([] : PaneCache) (pane_cache_key "s" 0) = none
    ∧ ((1 : Rat)/5 - 0 < 1/2) ∧ ((1 : Rat)/2 ≤ 3/5 - 0)
    ∧ (let r1 := _get_cached_pane_pids (fun _ => [42]) [] 0 "s" 0
       let r2 := _get_cached_pane_pids (fun _ => [42]) r1.cache (1/5) "s" 0
       let r3 := _get_cached_pane_pids (fun _ => [42]) r2.cache (3/5) "s" 0
       r1.queries = 1 ∧ r1.pids = [42]
       ∧ r2.queries = 0 ∧ r2.pids = r1.pids ∧ r2.cache = r1.cache
       ∧ r3.queries = 1 ∧ r3.pids = [42]
       ∧ cacheLookup r3.cache (pane_cache_key "s" 0)
           = some (3/5, [42])) := by
  refine ⟨rfl, by norm_num, by norm_num, ?_⟩
  exact pane_cache_ttl (fun _ => [42]) [] 0 (1/5) (3/5) "s" 0 rfl
    (by norm_num) (by norm_num)

/-- Output streams a Python `print` can target; plain `print` writes to
standard output. -/
inductive OutStream where
  | stdout
  | stderr
deriving Repr, DecidableEq

/-- What the refresh-rate validation at startup does: the messages it
prints (with their stream) and, if it stops the program there, the exit
status of the process. `exitStatus = none` means the check passed and the
program goes on to run the monitor. -/
structure StartupCheck where
  messages : List (OutStream × String)
  exitStatus : Option Nat
deriving Repr, DecidableEq

/-- The refresh-rate check in `main` of tmux_monitor.py (lines 1746-1748),
applied to the resolved refresh rate (CLI override, tmux option, or the
2.0 default): `print(...)` writes to standard output, then `sys.exit(1)`
ends the process with status 1. -/
def tmux_monitor_refresh_check (refresh_rate : Rat) : StartupCheck :=
  if refresh_rate ≤ 0 then
    ⟨[(OutStream.stdout, "Error: Refresh rate must be positive")], some 1⟩
  else ⟨[], none⟩

/-- The refresh-rate check in `main` of tmux_overview.py (lines 400-402):
`print(...)` writes to standard output, then `return` leaves `main`
normally, so the interpreter exits with status 0. -/
def tmux_overview_refresh_check (refresh_rate : Rat) : StartupCheck :=
  if refresh_rate ≤ 0 then
    ⟨[(OutStream.stdout, "Error: Refresh rate must be positive")], some 0⟩
  else ⟨[], none⟩

/-- C5: the claim says both programs exit with a non-zero status after
reporting on the error stream.  At refresh rate -1 the overview program
exits with status 0 (its `main` just `return`s after the `print`), and
both programs write the message to standard output, not standard error. -/
theorem refresh_check_cex :
    (tmux_overview_refresh_check (-1)).exitStatus = some 0
    ∧ (tmux_overview_refresh_check (-1)).messages
        = [(OutStream.stdout, "Error: Refresh rate must be positive")]
    ∧ (tmux_monitor_refresh_check (-1)).messages
        = [(OutStream.stdout, "Error: Refresh rate must be positive")] := by
  refine ⟨?_, ?_, ?_⟩ <;>
    simp [tmux_overview_refresh_check, tmux_monitor_refresh_check]

/-- C5 (amended): for every non-positive refresh rate, both programs stop
at startup and report "Error: Refresh rate must be positive" on standard
output; the per-session monitor exits with status 1, while the overview
program exits with status 0. -/
theorem refresh_check_nonpositive (r : Rat) (h : r ≤ 0) :
    tmux_monitor_refresh_check r
      = ⟨[(OutStream.stdout, "Error: Refresh rate must be positive")],
          some 1⟩
    ∧ tmux_overview_refresh_check r
      = ⟨[(OutStream.stdout, "Error: Refresh rate must be positive")],
          some 0⟩ := by
  constructor <;>
    simp [tmux_monitor_refresh_check, tmux_overview_refresh_check, h]

/-- Witness for `refresh_check_nonpositive` at refresh rate 0. -/
theorem refresh_check_nonpositive_witness :
    (0 : Rat) ≤ 0
    ∧ (tmux_monitor_refresh_check 0
      = ⟨[(OutStream.stdout, "Error: Refresh rate must be positive")],
          some 1⟩
    ∧ tmux_overview_refresh_check 0
      = ⟨[(OutStream.stdout, "Error: Refresh rate must be positive")],
          some 0⟩) :=
  ⟨le_refl 0, refresh_check_nonpositive 0 (le_refl 0)⟩

/-- The per-process dict built by `get_process_info` (tmux_monitor.py
lines 445-456): pid, cpu percent, RSS in KB, display command, depth from
the pane root, last-child flag, has-children flag and parent pid. -/
structure ProcessNode where
  pid : Nat
  cpu : Rat
  memory_kb : Nat
  command : String
  depth : Nat
  is_last_child : Bool
  has_children : Bool
  parent_pid : Option Nat
deriving Repr, DecidableEq

/-- `processes[i]["depth"]` for an in-range index (all indices the source
reaches are in range; out of range defaults to 0). -/
def depthAt (processes : List ProcessNode) (i : Nat) : Nat :=
  ((processes.get? i).map ProcessNode.depth).getD 0

/-- The backward scan of `get_tree_prefix` (lines 197-199):
`while check_idx > 0 and processes[check_idx]["depth"] > level:
check_idx -= 1`, started at `index`. -/
def ancestorScan (processes : List ProcessNode) (level : Nat) :
    Nat → Nat
  | 0 => 0
  | k + 1 =>
    if level < depthAt processes (k + 1) then ancestorScan processes level k
    else k + 1

/-- The forward scan of `get_tree_prefix` (lines 206-212): starting from
`ancestor_at_level + 1`, advance `subtree_end` while entries stay deeper
than `level`, and stop at the first entry at depth `<= level`.  The loop
over `range(ancestor_at_level + 1, len(processes))` is modelled by
recursing over the remaining entries while carrying the running index. -/
def subtreeEndScan (level : Nat) : Nat → Nat → List ProcessNode → Nat
  | cur, _, [] => cur
  | cur, i, p :: rest =>
    if level < p.depth then subtreeEndScan level i (i + 1) rest else cur

/-- The node's own connector (lines 181-184 and 187-190): `└──` for a
last child, `├──` otherwise. -/
def connectorGlyph (process : ProcessNode) : String :=
  if process.is_last_child then "└──" else "├──"

/-- One `prefix_parts` entry of `get_tree_prefix` for a given `level` of
the `for level in range(depth)` loop (lines 178-220). -/
def treePrefixGlyph (process : ProcessNode) (processes : List ProcessNode)
    (index level : Nat) : String :=
  if level = 0 ∧ process.depth = 1 then connectorGlyph process
  else if level = process.depth - 1 then connectorGlyph process
  else
    let check_idx := ancestorScan processes level index
    let has_sibling : Bool :=
      if depthAt processes check_idx = level then
        let subtree_end := subtreeEndScan level check_idx (check_idx + 1)
          (processes.drop (check_idx + 1))
        (processes.drop (subtree_end + 1)).any
          (fun p => p.depth == level)
      else false
    if has_sibling then "│   " else "    "

/-- `TmuxResourceMonitor.get_tree_prefix(process, processes, index)`
(tmux_monitor.py lines 172-222): one glyph group per level from 0 to
`depth - 1`, joined. -/
def get_tree_prefix (process : ProcessNode) (processes : List ProcessNode)
    (index : Nat) : String :=
  String.join ((List.range process.depth).map
    (treePrefixGlyph process processes index))

/-- Root of the C2 scenario: one pane root at depth 0. -/
def c2Root : ProcessNode := ⟨100, 0, 0, "root", 0, false, true, none⟩

/-- First child of the root (has a later sibling, so not last). -/
def c2Child1 : ProcessNode := ⟨101, 0, 0, "child1", 1, false, true, some 100⟩

/-- Only child of the first child. -/
def c2Grand1 : ProcessNode := ⟨102, 0, 0, "grand1", 2, true, false, some 101⟩

/-- Second and last child of the root. -/
def c2Child2 : ProcessNode := ⟨103, 0, 0, "child2", 1, true, true, some 100⟩

/-- Only child of the second child. -/
def c2Grand2 : ProcessNode := ⟨104, 0, 0, "grand2", 2, true, false, some 103⟩

/-- The flat pre-order sequence of the C2 scenario: root, first child and
its child, second child and its child. -/
def c2Processes : List ProcessNode :=
  [c2Root, c2Child1, c2Grand1, c2Child2, c2Grand2]

/-- C2: the claim (and spec §4.4/§8) wants the first grandchild's
ancestor column to carry the vertical continuation `│   ` because its
depth-1 ancestor (the first child) has a later sibling.  The code's
ancestor check at column `level` examines the ancestor at depth `level`
itself (here the pane root, which has no later sibling) instead of the
ancestor at depth `level + 1`, so both grandchildren get blank padding:
the first grandchild renders as `    └──`, not `│   └──`. -/
theorem tree_prefix_c2_eval :
    get_tree_prefix c2Grand1 c2Processes 2 = "    └──"
    ∧ get_tree_prefix c2Grand2 c2Processes 4 = "    └──"
    ∧ get_tree_prefix c2Grand1 c2Processes 2 ≠ "│   └──" := by
  refine ⟨?_, ?_, ?_⟩ <;> decide

/-- C10: for every node of depth 0 (a pane root) the tree-prefix function
returns the empty string, whatever its last-child flag and whatever else
the sequence contains: the `for level in range(depth)` loop body never
runs. -/
theorem tree_prefix_depth_zero (process : ProcessNode)
    (processes : List ProcessNode) (index : Nat)
    (h : process.depth = 0) :
    get_tree_prefix process processes index = "" := by
  simp [ get_tree_prefix, h, String.join]

/-- Witness for `tree_prefix_depth_zero`: a depth-0 pane root with
`is_last_child = true` sitting among two sibling pane roots. -/
theorem tree_prefix_depth_zero_witness :
    (ProcessNode.depth ⟨200, 0, 0, "panetwo", 0, true, false, none⟩ = 0)
    ∧ get_tree_prefix ⟨200, 0, 0, "panetwo", 0, true, false, none⟩
        [c2Root, ⟨200, 0, 0, "panetwo", 0, true, false, none⟩] 1 = "" :=
  ⟨rfl, tree_prefix_depth_zero ⟨200, 0, 0, "panetwo", 0, true, false, none⟩
    [c2Root, ⟨200, 0, 0, "panetwo", 0, true, false, none⟩] 1 rfl⟩

/-- The tab reconciliation of `TmuxResourceMonitor.collect_window_data`
(tmux_monitor.py lines 507-591), with a window represented by its
`(window_index, window_name)` pair: the rebuild loop (lines 521-560)
appends exactly one `WindowStats` per window returned by
`get_tmux_windows`, in order, so the new list is `new_windows` 1:1.
`old_windows` is the previous `self.windows_data` (projected to index and
name), `current_tab` the previous `self.current_tab`; `window_filter` is
`None`-or-truthy (a falsy empty string is modelled as `none`).  Returns
the new `self.current_tab`. -/
def collect_window_data_tab (old_windows : List (Nat × String))
    (current_tab : Nat) (window_filter : Option String)
    (new_windows : List (Nat × String)) : Nat :=
  let old_sel := old_windows.get? current_tab
  let old_windows_count := old_windows.length
  if new_windows ≠ [] then
    if old_windows_count = 0 ∧ window_filter.isSome then
      match window_filter with
      | some f =>
        match new_windows.findIdx? (fun w => w.2 == f) with
        | some i => i
        | none => 0
      | none => 0
    else
      match old_sel with
      | some (old_window_index, old_window_name) =>
        match new_windows.findIdx? (fun w => w.2 == old_window_name) with
        | some i => i
        | none =>
          match new_windows.findIdx? (fun w => w.1 == old_window_index)
            with
          | some i => i
          | none => min current_tab (new_windows.length - 1)
      | none => current_tab
  else current_tab

/-- C3: the claim says the selection becomes index 0 only when the old
window name is entirely absent and its positional index is out of range
of the new list.  Counterexample: old windows `[(0,"A"), (1,"B")]` with
tab 1 (window "B", tmux index 1), new windows `[(1,"C"), (2,"D")]`.  The
name "B" is absent but the positional index 1 is in range of the
two-element list; the index-field fallback matches tmux index 1 at
position 0, so the selection becomes 0 anyway. -/
theorem collect_window_data_tab_cex :
    collect_window_data_tab [(0, "A"), (1, "B")] 1 none
      [(1, "C"), (2, "D")] = 0
    ∧ 1 < ([((1 : Nat), "C"), (2, "D")] : List (Nat × String)).length
    ∧ ∀ w ∈ ([((1 : Nat), "C"), (2, "D")] : List (Nat × String)),
        w.2 ≠ "B" := by
  refine ⟨?_, ?_, ?_⟩ <;> decide

/-- C3 (amended): after a refresh with a previously valid selection and a
nonempty new window list, the selection is the first new position whose
name equals the old window's name; if no name matches, the first position
whose tmux window-index field equals the old window's index; otherwise
the old tab clamped to `min(old tab, new length - 1)` — so a name-
preserving reorder keeps the selection, but the selection is not reset to
0 when both lookups fail, and it can become 0 via the index-field
fallback even when the old positional index is in range. -/
theorem collect_window_data_tab_characterization
    (old_windows : List (Nat × String)) (current_tab : Nat)
    (window_filter : Option String) (new_windows : List (Nat × String))
    (old_window_index : Nat) (old_window_name : String)
    (hsel : old_windows.get? current_tab
      = some (old_window_index, old_window_name))
    (hne : new_windows ≠ []) :
    collect_window_data_tab old_windows current_tab window_filter
      new_windows
      = match new_windows.findIdx? (fun w => w.2 == old_window_name) with
        | some i => i
        | none =>
          match new_windows.findIdx? (fun w => w.1 == old_window_index)
            with
          | some i => i
          | none => min current_tab (new_windows.length - 1) := by
  have hlen : old_windows.length ≠ 0 := by
    intro h0
    rw [List.length_eq_zero] at h0
    rw [h0] at hsel
    simp [List.get?] at hsel
  simp only [collect_window_data_tab, hsel, if_pos hne]
  rw [if_neg]
  intro hcontra
  exact hlen hcontra.1

/-- Witness for `collect_window_data_tab_characterization`: a refresh that
reorders windows but keeps names; the selection follows the name "B" from
position 1 to position 0. -/
theorem collect_window_data_tab_characterization_witness :
    ([((0 : Nat), "A"), (1, "B")] : List (Nat × String)).get? 1
        = some (1, "B")
    ∧ ([((5 : Nat), "B"), (0, "A")] : List (Nat × String)) ≠ []
    ∧ collect_window_data_tab [(0, "A"), (1, "B")] 1 none
        [(5, "B"), (0, "A")]
      = match ([((5 : Nat), "B"), (0, "A")] : List (Nat × String)).findIdx?
          (fun w => w.2 == "B") with
        | some i => i
        | none =>
          match ([((5 : Nat), "B"), (0, "A")] : List (Nat × String)).findIdx?
            (fun w => w.1 == 1) with
          | some i => i
          | none => min 1 (([((5 : Nat), "B"), (0, "A")] :
              List (Nat × String)).length - 1) := by
  refine ⟨by decide, by decide, ?_⟩
  exact collect_window_data_tab_characterization [(0, "A"), (1, "B")] 1
    none [(5, "B"), (0, "A")] 1 "B" (by decide) (by decide)

/-- The `SessionStats` dataclass shared by both programs: name, total CPU
percent, total RAM in KB, process count, window count. -/
structure SessionStats where
  name : String
  cpu_total : Rat
  ram_total : Nat
  process_count : Nat
  window_count : Nat
deriving Repr, DecidableEq

/-- One step of the stable descending sort on `cpu_total`: insert `x`
into an already-sorted list, moving past `y` only while `y.cpu_total` is
strictly greater, so that an element never overtakes an equal-CPU element
that was discovered earlier. -/
def descInsert (x : SessionStats) :
    List SessionStats → List SessionStats
  | [] => [x]
  | y :: ys =>
    if x.cpu_total < y.cpu_total then y :: descInsert x ys
    else x :: y :: ys

/-- `self.sessions_data.sort(key=lambda x: x.cpu_total, reverse=True)`
(tmux_monitor.py line 332 and tmux_overview.py line 157).  Python's sort
with `reverse=True` is the stable descending sort by the key: descending
`cpu_total` with ties kept in original order.  That reordering is unique,
and this insertion sort computes it. -/
def sortByCpuDesc : List SessionStats → List SessionStats
  | [] => []
  | x :: xs => descInsert x (sortByCpuDesc xs)

/-- `TmuxResourceMonitor.collect_all_sessions_stats` (tmux_monitor.py
lines 290-332): the per-session loop issues external queries (pane pids,
window count, per-pid `get_cpu_percent`/RSS sums) and appends one
`SessionStats` per session in discovery order; that loop body is
abstracted as `compute_stats`, with `none` for the
`except Exception: continue` path.  The resulting list is then sorted by
total CPU descending. -/
def collect_all_sessions_stats
    (compute_stats : String → Option SessionStats)
    (sessions : List String) : List SessionStats :=
  sortByCpuDesc (sessions.filterMap compute_stats)

/-- `TmuxOverviewMonitor.collect_all_sessions_stats` (tmux_overview.py
lines 117-157): same shape as the monitor's version (its loop body uses
`proc.cpu_percent()` instead of the baseline model, abstracted the same
way), ending in the same `sort(key=..., reverse=True)`. -/
def overview_collect_all_sessions_stats
    (compute_stats : String → Option SessionStats)
    (sessions : List String) : List SessionStats :=
  sortByCpuDesc (sessions.filterMap compute_stats)

/-- Keep only the sessions whose total CPU is exactly `c` (used to state
stability: a stable sort preserves each equal-key band verbatim). -/
def filterCpu (c : Rat) (l : List SessionStats) : List SessionStats :=
  l.filter (fun s => decide (s.cpu_total = c))

/-- `descInsert` produces a permutation of consing. -/
theorem descInsert_perm (x : SessionStats) (l : List SessionStats) :
    (descInsert x l).Perm (x :: l) := by
  induction l with
  | nil => simp [descInsert]
  | cons y ys ih =>
    by_cases h : x.cpu_total < y.cpu_total
    · simp only [descInsert, if_pos h]
      exact (ih.cons y).trans (List.Perm.swap x y ys)
    · simp [descInsert, if_neg h]

/-- `sortByCpuDesc` permutes its input. -/
theorem sortByCpuDesc_perm (l : List SessionStats) :
    (sortByCpuDesc l).Perm l := by
  induction l with
  | nil => simp [sortByCpuDesc]
  | cons x xs ih =>
    exact (descInsert_perm x (sortByCpuDesc xs)).trans
      (List.Perm.cons x ih)

/-- Inserting preserves descending order. -/
theorem descInsert_pairwise (x : SessionStats) (l : List SessionStats)
    (h : l.Pairwise (fun a b => b.cpu_total ≤ a.cpu_total)) :
    (descInsert x l).Pairwise (fun a b => b.cpu_total ≤ a.cpu_total) := by
  induction l with
  | nil => simp [descInsert]
  | cons y ys ih =>
    rcases List.pairwise_cons.mp h with ⟨hy, hys⟩
    by_cases hlt : x.cpu_total < y.cpu_total
    · simp only [descInsert, if_pos hlt]
      refine List.pairwise_cons.mpr ⟨?_, ih hys⟩
      intro z hz
      have hz' := (descInsert_perm x ys).mem_iff.mp hz
      rcases List.mem_cons.mp hz' with hzx | hzys
      · exact hzx ▸ le_of_lt hlt
      · exact hy z hzys
    · simp only [descInsert, if_neg hlt]
      have hyx : y.cpu_total ≤ x.cpu_total := not_lt.mp hlt
      refine List.pairwise_cons.mpr ⟨?_, h⟩
      intro z hz
      rcases List.mem_cons.mp hz with hzy | hzys
      · exact hzy ▸ hyx
      · exact le_trans (hy z hzys) hyx

/-- The sort's output is descending in `cpu_total`. -/
theorem sortByCpuDesc_pairwise (l : List SessionStats) :
    (sortByCpuDesc l).Pairwise (fun a b => b.cpu_total ≤ a.cpu_total) := by
  induction l with
  | nil => simp [sortByCpuDesc]
  | cons x xs ih => exact descInsert_pairwise x (sortByCpuDesc xs) ih

/-- Inserting an element of CPU band `c` puts it at the head of that
band: everything it skipped has strictly larger CPU. -/
theorem filterCpu_descInsert_eq (c : Rat) (x : SessionStats)
    (l : List SessionStats) (hx : x.cpu_total = c) :
    filterCpu c (descInsert x l) = x :: filterCpu c l := by
  subst hx
  induction l with
  | nil => simp [descInsert, filterCpu]
  | cons y ys ih =>
    by_cases hlt : x.cpu_total < y.cpu_total
    · have hy : ¬ (y.cpu_total = x.cpu_total) := by
        intro hyc
        rw [hyc] at hlt
        exact lt_irrefl _ hlt
      simp only [descInsert, if_pos hlt]
      simp only [filterCpu, List.filter_cons] at ih ⊢
      simp [hy, ih]
    · simp [descInsert, if_neg hlt, filterCpu, List.filter_cons]

/-- Inserting an element outside CPU band `c` leaves that band alone. -/
theorem filterCpu_descInsert_ne (c : Rat) (x : SessionStats)
    (l : List SessionStats) (hx : ¬ (x.cpu_total = c)) :
    filterCpu c (descInsert x l) = filterCpu c l := by
  induction l with
  | nil => simp [descInsert, filterCpu, hx]
  | cons y ys ih =>
    by_cases hlt : x.cpu_total < y.cpu_total
    · simp only [descInsert, if_pos hlt]
      simp only [filterCpu, List.filter_cons] at ih ⊢
      by_cases hy : y.cpu_total = c
      · simp [hy, ih]
      · simp [hy, ih]
    · simp [descInsert, if_neg hlt, filterCpu, List.filter_cons, hx]

/-- Stability: sorting preserves each equal-CPU band verbatim. -/
theorem filterCpu_sortByCpuDesc (c : Rat) (l : List SessionStats) :
    filterCpu c (sortByCpuDesc l) = filterCpu c l := by
  induction l with
  | nil => rfl
  | cons x xs ih =>
    by_cases hx : x.cpu_total = c
    · simp only [sortByCpuDesc, filterCpu_descInsert_eq c x _ hx, ih]
      simp [filterCpu, List.filter_cons, hx]
    · simp only [sortByCpuDesc, filterCpu_descInsert_ne c x _ hx, ih]
      simp [filterCpu, List.filter_cons, hx]

/-- C9: after every aggregation pass, in both programs and for any input
ordering, the session list is a permutation of the discovered stats that
is sorted by total CPU descending, and every band of equal-CPU sessions
keeps its relative discovery order (stability). -/
theorem sessions_sorted_cpu_desc_stable
    (compute_stats : String → Option SessionStats)
    (sessions : List String) :
    ((collect_all_sessions_stats compute_stats sessions).Pairwise
        (fun a b => b.cpu_total ≤ a.cpu_total)
      ∧ (collect_all_sessions_stats compute_stats sessions).Perm
          (sessions.filterMap compute_stats)
      ∧ ∀ c, filterCpu c (collect_all_sessions_stats compute_stats
          sessions) = filterCpu c (sessions.filterMap compute_stats))
    ∧ ((overview_collect_all_sessions_stats compute_stats
          sessions).Pairwise (fun a b => b.cpu_total ≤ a.cpu_total)
      ∧ (overview_collect_all_sessions_stats compute_stats
          sessions).Perm (sessions.filterMap compute_stats)
      ∧ ∀ c, filterCpu c (overview_collect_all_sessions_stats
          compute_stats sessions)
          = filterCpu c (sessions.filterMap compute_stats)) :=
  ⟨⟨sortByCpuDesc_pairwise _, sortByCpuDesc_perm _,
      fun c => filterCpu_sortByCpuDesc c _⟩,
    ⟨sortByCpuDesc_pairwise _, sortByCpuDesc_perm _,
      fun c => filterCpu_sortByCpuDesc c _⟩⟩

mutual
/-- One refresh tick's consistent snapshot of a process subtree, as the
external `psutil` world presents it to `get_process_info`:
`ok` says whether querying this process succeeds (`false` models
`NoSuchProcess`/`AccessDenied`, which makes the code omit the node and
skip its subtree); `cmdline` is `proc.cmdline()`, `pname` is
`proc.name()`, and `children` is `list(proc.children())` in discovery
order. -/
inductive PTree where
  | node (ok : Bool) (pid : Nat) (rss_kb : Nat) (cmdline : List String)
      (pname : String) (children : PForest) : PTree
/-- A forest: the children list of a process, in discovery order. -/
inductive PForest where
  | nil : PForest
  | cons (head : PTree) (tail : PForest) : PForest
end

/-- The `ok` flag of the root process of a subtree. -/
def PTree.ok : PTree → Bool
  | .node o _ _ _ _ _ => o

/-- The pid of the root process of a subtree. -/
def PTree.pid : PTree → Nat
  | .node _ p _ _ _ _ => p

/-- The children forest of the root process of a subtree. -/
def PTree.children : PTree → PForest
  | .node _ _ _ _ _ cs => cs

/-- `len(children) > 0` on a forest. -/
def PForest.isNonempty : PForest → Bool
  | .nil => false
  | .cons _ _ => true

/-- The pids of all processes in a forest, in order: what comparing
against `list(parent.children())` sees. -/
def PForest.pids : PForest → List Nat
  | .nil => []
  | .cons t rest => t.pid :: rest.pids

/-- The pids of the queryable (`ok`) processes of a forest, in order:
exactly the children that `get_process_info` emits. -/
def PForest.okPids : PForest → List Nat
  | .nil => []
  | .cons t rest => if t.ok then t.pid :: rest.okPids else rest.okPids

/-- The display command of `get_process_info` (lines 421-427):
`executable = cmdline_parts[0].split("/")[-1]` joined with the remaining
arguments, or `proc.name()` when the command line is empty. -/
def display_command (cmdline : List String) (pname : String) : String :=
  match cmdline with
  | [] => pname
  | c0 :: args =>
    let executable := (c0.splitOn "/").getLastD c0
    executable ++
      (if args ≠ [] then " " ++ String.intercalate " " args else "")

/-- The `is_last_child` determination (lines 430-439): false for a pane
root (`parent_pid is None`); otherwise re-query the parent's live
children and compare the last one's pid.  `parent` carries the parent
pid together with the pids of the parent's children as the consistent
snapshot reports them. -/
def isLastChild (pid : Nat) (parent : Option (Nat × List Nat)) : Bool :=
  match parent with
  | none => false
  | some (_, siblings) =>
    match siblings.getLast? with
    | some last_child => last_child == pid
    | none => false

mutual
/-- `TmuxResourceMonitor.get_process_info(pid, depth, parent_pid)`
(tmux_monitor.py lines 412-473) over the snapshot tree.  `cpuOf`
abstracts `self.get_cpu_percent` (read-only under the default
`update_baseline=False`, so a plain function).  A failing query
contributes nothing; a successful one appends the node dict and then
the children outputs in discovery order. -/
def get_process_info (cpuOf : Nat → Rat) :
    PTree → Nat → Option (Nat × List Nat) → List ProcessNode
  | PTree.node ok pid rss_kb cmdline pname children, depth, parent =>
    if ok then
      ⟨pid, cpuOf pid, rss_kb, display_command cmdline pname, depth,
        isLastChild pid parent, children.isNonempty,
        parent.map Prod.fst⟩
      :: get_process_info_children cpuOf children (depth + 1) pid
          children.pids
    else []
/-- The `for child in children: processes.extend(...)` loop of
`get_process_info` (tmux_monitor.py lines 458-463), recursing at
`depth + 1` with this node as the parent. -/
def get_process_info_children (cpuOf : Nat → Rat) :
    PForest → Nat → Nat → List Nat → List ProcessNode
  | PForest.nil, _, _, _ => []
  | PForest.cons child rest, depth, parent_pid, siblings =>
    get_process_info cpuOf child depth (some (parent_pid, siblings))
      ++ get_process_info_children cpuOf rest depth parent_pid siblings
end

mutual
/-- Every node the builder emits for a subtree rooted at recursion depth
`d` has depth at least `d`. -/
theorem get_process_info_depth_le (cpuOf : Nat → Rat) (t : PTree)
    (d : Nat) (parent : Option (Nat × List Nat)) :
    ∀ x ∈ get_process_info cpuOf t d parent, d ≤ x.depth := by
  cases t with
  | node ok pid rss_kb cmdline pname children =>
    cases ok with
    | false =>
      intro x hx
      simp [ get_process_info] at hx
    | true =>
      intro x hx
      simp only [get_process_info, if_true] at hx
      rcases List.mem_cons.mp hx with h1 | h2
      · subst h1
        exact le_refl d
      · exact le_trans (Nat.le_succ d)
          (get_process_info_children_depth_le cpuOf children (d + 1) pid
            children.pids x h2)
/-- Every node the builder emits for a children forest at recursion
depth `d` has depth at least `d`. -/
theorem get_process_info_children_depth_le (cpuOf : Nat → Rat)
    (f : PForest) (d : Nat) (parent_pid : Nat) (siblings : List Nat) :
    ∀ x ∈ get_process_info_children cpuOf f d parent_pid siblings,
      d ≤ x.depth := by
  cases f with
  | nil =>
    intro x hx
    simp [ get_process_info_children] at hx
  | cons child rest =>
    intro x hx
    simp only [get_process_info_children] at hx
    rcases List.mem_append.mp hx with h1 | h2
    · exact get_process_info_depth_le cpuOf child d
        (some (parent_pid, siblings)) x h1
    · exact get_process_info_children_depth_le cpuOf rest d parent_pid
        siblings x h2
end

/-- The node `c`'s emitting parent appears in `pre`: `pre` splits as
`pre2 ++ p :: mid` where `p` is one level shallower than `c`, is the
process recorded as `c`'s parent, and only members of `c`'s parent's
subtree (depth at least `c.depth`) separate them.  This is the flat-list
reading of "all of a node's descendants appear contiguously immediately
after it". -/
def HasParentBefore (pre : List ProcessNode) (c : ProcessNode) : Prop :=
  ∃ pre2 p mid, pre = pre2 ++ p :: mid ∧ p.depth + 1 = c.depth
    ∧ c.parent_pid = some p.pid ∧ ∀ x ∈ mid, c.depth ≤ x.depth

mutual
/-- Parent-link property for a subtree's output: every emitted node
strictly deeper than the subtree root has its parent immediately before
it (separated only by deeper nodes). -/
theorem get_process_info_parent_link (cpuOf : Nat → Rat) (t : PTree)
    (d : Nat) (parent : Option (Nat × List Nat)) :
    ∀ pre c suf, get_process_info cpuOf t d parent = pre ++ c :: suf →
      d < c.depth → HasParentBefore pre c := by
  cases t with
  | node ok pid rss_kb cmdline pname children =>
    cases ok with
    | false =>
      intro pre c suf heq hlt
      rw [show get_process_info cpuOf
          (PTree.node false pid rss_kb cmdline pname children) d parent
          = [] from rfl] at heq
      exact absurd heq.symm (by simp)
    | true =>
      intro pre c suf heq hlt
      simp only [get_process_info, if_true] at heq
      rcases List.cons_eq_append_iff.mp heq with ⟨hpre, hsuf⟩ |
        ⟨pre', hpre, hF⟩
      · exfalso
        have hinj := (List.cons.injEq _ _ _ _).mp hsuf.symm
        have hc : c.depth = d := by
          rw [← hinj.1]
        omega
      · have hrec := get_process_info_children_parent_link cpuOf children
          (d + 1) pid children.pids pre' c suf hF
        rcases hrec with ⟨hd1, hpp, hpre'⟩ | ⟨_, pre2, p, mid, hdec, hpd,
          hpp, hmid⟩
        · refine ⟨[], _, pre', hpre, ?_, ?_, hpre'⟩
          · show d + 1 = c.depth
            omega
          · exact hpp
        · refine ⟨(⟨pid, cpuOf pid, rss_kb, display_command cmdline pname,
              d, isLastChild pid parent, children.isNonempty,
              parent.map Prod.fst⟩ : ProcessNode) :: pre2, p, mid, ?_,
            hpd, hpp, hmid⟩
          rw [hpre, hdec]
          rfl
/-- Parent-link property for a children forest's output at depth `d`:
every emitted node is either one of the forest's own roots (depth `d`,
recorded parent `parent_pid`, preceded only by members of earlier
sibling subtrees, all of depth at least `d`), or strictly deeper with
its parent immediately before it. -/
theorem get_process_info_children_parent_link (cpuOf : Nat → Rat)
    (f : PForest) (d : Nat) (parent_pid : Nat) (siblings : List Nat) :
    ∀ pre c suf,
      get_process_info_children cpuOf f d parent_pid siblings
        = pre ++ c :: suf →
      (c.depth = d ∧ c.parent_pid = some parent_pid
          ∧ ∀ x ∈ pre, c.depth ≤ x.depth)
      ∨ (d < c.depth ∧ HasParentBefore pre c) := by
  cases f with
  | nil =>
    intro pre c suf heq
    rw [show get_process_info_children cpuOf PForest.nil d parent_pid
        siblings = [] from rfl] at heq
    exact absurd heq.symm (by simp)
  | cons child rest =>
    intro pre c suf heq
    simp only [get_process_info_children] at heq
    rcases List.append_eq_append_iff.mp heq with ⟨a', hpre, hB⟩ |
      ⟨c', hA, hcs⟩
    · have hrec := get_process_info_children_parent_link cpuOf rest d
        parent_pid siblings a' c suf hB
      rcases hrec with ⟨hd, hpp, hpre'⟩ | ⟨hlt, pre2, p, mid, hdec, hpd,
        hpp, hmid⟩
      · left
        refine ⟨hd, hpp, ?_⟩
        intro x hx
        rw [hpre] at hx
        rcases List.mem_append.mp hx with h1 | h2
        · have hxd := get_process_info_depth_le cpuOf child d
            (some (parent_pid, siblings)) x h1
          omega
        · exact hpre' x h2
      · right
        refine ⟨hlt, get_process_info cpuOf child d
          (some (parent_pid, siblings)) ++ pre2, p, mid, ?_, hpd, hpp,
          hmid⟩
        rw [hpre, hdec, List.append_assoc]
    · cases c' with
      | nil =>
        rw [List.append_nil] at hA
        rw [List.nil_append] at hcs
        have hrec := get_process_info_children_parent_link cpuOf rest d
          parent_pid siblings [] c suf hcs.symm
        rcases hrec with ⟨hd, hpp, _⟩ | ⟨_, pre2, p, mid, hdec, _, _, _⟩
        · left
          refine ⟨hd, hpp, ?_⟩
          intro x hx
          rw [← hA] at hx
          have hxd := get_process_info_depth_le cpuOf child d
            (some (parent_pid, siblings)) x hx
          omega
        · exact absurd hdec.symm (by simp)
      | cons c'' c'tail =>
        rw [List.cons_append] at hcs
        have hcc : c = c'' ∧ suf = c'tail
            ++ get_process_info_children cpuOf rest d parent_pid
              siblings :=
          (List.cons.injEq _ _ _ _).mp hcs
        rcases hcc with ⟨hc, _⟩
        subst hc
        have hcmem : c ∈ get_process_info cpuOf child d
            (some (parent_pid, siblings)) := by
          rw [hA]
          exact List.mem_append_right pre (List.mem_cons_self c c'tail)
        have hcd : d ≤ c.depth := get_process_info_depth_le cpuOf child d
          (some (parent_pid, siblings)) c hcmem
        rcases Nat.lt_or_ge d c.depth with hlt | hge
        · right
          exact ⟨hlt, get_process_info_parent_link cpuOf child d
            (some (parent_pid, siblings)) pre c c'tail hA hlt⟩
        · have hd : c.depth = d := le_antisymm hge hcd
          left
          cases child with
          | node ok2 pid2 rss2 cmd2 pname2 ch2 =>
            cases ok2 with
            | false =>
              rw [show get_process_info cpuOf
                  (PTree.node false pid2 rss2 cmd2 pname2 ch2) d
                  (some (parent_pid, siblings)) = [] from rfl] at hA
              exact absurd hA.symm (by simp)
            | true =>
              simp only [get_process_info, if_true] at hA
              rcases List.cons_eq_append_iff.mp hA with
                ⟨hpre0, hrest0⟩ | ⟨pre', hpre0, hF2⟩
              · have hc0 : c = ⟨pid2, cpuOf pid2, rss2,
                    display_command cmd2 pname2, d,
                    isLastChild pid2 (some (parent_pid, siblings)),
                    ch2.isNonempty, some parent_pid⟩ :=
                  ((List.cons.injEq _ _ _ _).mp hrest0).1
                refine ⟨hd, ?_, ?_⟩
                · rw [hc0]
                · intro x hx
                  rw [hpre0] at hx
                  exact absurd hx (List.not_mem_nil x)
              · exfalso
                have hcF2 : c ∈ get_process_info_children cpuOf ch2
                    (d + 1) pid2 ch2.pids := by
                  rw [hF2]
                  exact List.mem_append_right pre'
                    (List.mem_cons_self c c'tail)
                have := get_process_info_children_depth_le cpuOf ch2
                  (d + 1) pid2 ch2.pids c hcF2
                omega
end

/-- The depth-`d` band of a forest's output is exactly the pids of the
forest's queryable roots, in discovery order: each `ok` child
contributes its own node at depth `d` and only strictly deeper
descendants. -/
theorem get_process_info_children_filter_heads (cpuOf : Nat → Rat)
    (f : PForest) (d : Nat) (parent_pid : Nat) (siblings : List Nat) :
    ((get_process_info_children cpuOf f d parent_pid siblings).filter
      (fun x => x.depth == d)).map ProcessNode.pid = f.okPids := by
  cases f with
  | nil => simp [ get_process_info_children, PForest.okPids]
  | cons child rest =>
    have ihrest := get_process_info_children_filter_heads cpuOf rest d
      parent_pid siblings
    simp only [get_process_info_children, List.filter_append,
      List.map_append]
    cases child with
    | node ok2 pid2 rss2 cmd2 pname2 ch2 =>
      cases ok2 with
      | false =>
        rw [show get_process_info cpuOf
            (PTree.node false pid2 rss2 cmd2 pname2 ch2) d
            (some (parent_pid, siblings)) = [] from rfl]
        simpa [PForest.okPids, PTree.ok] using ihrest
      | true =>
        simp only [get_process_info, if_true]
        have hdeep : (get_process_info_children cpuOf ch2 (d + 1) pid2
            ch2.pids).filter (fun x => x.depth == d) = [] := by
          rw [List.filter_eq_nil_iff]
          intro x hx
          have := get_process_info_children_depth_le cpuOf ch2 (d + 1)
            pid2 ch2.pids x hx
          simp only [beq_iff_eq]
          omega
        rw [List.filter_cons]
        simp only [beq_self_eq_true, if_true, hdeep]
        simpa [PForest.okPids, PTree.ok, PTree.pid] using ihrest

/-- C8: for every pane root, the builder's output is in pre-order.  The
head (when a node is emitted at all) is the pane root at depth 0 and
everything after it is strictly deeper; every non-root node's emitting
parent precedes it separated only by nodes of the parent's subtree
(depth at least the node's own), which is exactly "all of N's
descendants appear contiguously immediately after N"; and the depth-1
band lists the root's queryable children in discovery order. -/
theorem tree_builder_preorder (cpuOf : Nat → Rat) (t : PTree) :
    (∀ n rest, get_process_info cpuOf t 0 none = n :: rest →
        n.depth = 0 ∧ ∀ x ∈ rest, 0 < x.depth)
    ∧ (∀ pre c suf, get_process_info cpuOf t 0 none = pre ++ c :: suf →
        0 < c.depth → HasParentBefore pre c)
    ∧ (t.ok = true →
        ((get_process_info cpuOf t 0 none).filter
          (fun x => x.depth == 1)).map ProcessNode.pid
          = t.children.okPids) := by
  refine ⟨?_, ?_, ?_⟩
  · intro n rest heq
    cases t with
    | node ok pid rss_kb cmdline pname children =>
      cases ok with
      | false =>
        rw [show get_process_info cpuOf
            (PTree.node false pid rss_kb cmdline pname children) 0 none
            = [] from rfl] at heq
        exact absurd heq.symm (by simp)
      | true =>
        simp only [get_process_info, if_true] at heq
        have hinj := (List.cons.injEq _ _ _ _).mp heq
        constructor
        · rw [← hinj.1]
        · intro x hx
          rw [← hinj.2] at hx
          exact get_process_info_children_depth_le cpuOf children 1 pid
            children.pids x hx
  · exact get_process_info_parent_link cpuOf t 0 none
  · intro hok
    cases t with
    | node ok pid rss_kb cmdline pname children =>
      cases ok with
      | false => exact absurd hok (by simp [PTree.ok])
      | true =>
        simp only [get_process_info, if_true, PTree.children]
        rw [List.filter_cons]
        have hroot : ((⟨pid, cpuOf pid, rss_kb,
            display_command cmdline pname, 0,
            isLastChild pid none, children.isNonempty,
            Option.map Prod.fst (none : Option (Nat × List Nat))⟩ : ProcessNode).depth == 1)
            = false := by
          simp
        rw [hroot]
        simp only [Bool.false_eq_true, if_false]
        exact get_process_info_children_filter_heads cpuOf children 1
          pid children.pids

/-- The example pane-root snapshot used to witness `tree_builder_preorder`:
a shell with two queryable children. -/
def c8Tree : PTree :=
  PTree.node true 10 5 [] "bash"
    (PForest.cons (PTree.node true 11 6 [] "vim" PForest.nil)
      (PForest.cons (PTree.node true 12 7 [] "git" PForest.nil)
        PForest.nil))

/-- The node the builder emits for the root of `c8Tree`. -/
def c8RootNode : ProcessNode := ⟨10, 0, 5, "bash", 0, false, true, none⟩

/-- The node the builder emits for the first child of `c8Tree`. -/
def c8VimNode : ProcessNode := ⟨11, 0, 6, "vim", 1, false, false, some 10⟩

/-- The node the builder emits for the second child of `c8Tree`. -/
def c8GitNode : ProcessNode := ⟨12, 0, 7, "git", 1, true, false, some 10⟩

/-- Witness for `tree_builder_preorder` on `c8Tree`: the output is the
root followed by its two children; the head has depth 0, the tail is
strictly deeper, and the depth-1 band is `[11, 12]` in discovery
order. -/
theorem tree_builder_preorder_witness :
    get_process_info (fun _ => 0) c8Tree 0 none
      = c8RootNode :: [c8VimNode, c8GitNode]
    ∧ (ProcessNode.depth c8RootNode = 0
        ∧ ∀ x ∈ [c8VimNode, c8GitNode], 0 < x.depth)
    ∧ PTree.ok c8Tree = true
    ∧ ((get_process_info (fun _ => 0) c8Tree 0 none).filter
        (fun x => x.depth == 1)).map ProcessNode.pid
        = (PTree.children c8Tree).okPids := by
  have h := tree_builder_preorder (fun _ => 0) c8Tree
  exact ⟨rfl, h.1 c8RootNode [c8VimNode, c8GitNode] rfl, rfl,
    h.2.2 rfl⟩

end TmuxMonitor
